import Mathlib

/-!
Verification development for the Border-VPN/blacklist repository.

The repository consists of two Python scripts operating on a line-oriented
text file of blocked identifiers:

- scripts/merge_blacklist.py : reads the target and a source file, merges
  their entry lists with case-insensitive deduplication for usernames,
  sorts the result (numeric ids first), and renders the file back with a
  freshness-marker header line.
- scripts/validate_blacklist.py : re-parses the file and reports, per line,
  "duplicate" or "invalid format" violations.

Strings are modelled as lists of characters (Lean Char).  The Python string
primitives used by the scripts (strip, rstrip, lower, startswith, split,
lstrip, isdigit, int conversion) are modelled for the ASCII fragment the
scripts are written against; Char.toLower in Lean core is exactly the ASCII
lowercasing that Python performs on ASCII data.
-/

/-- A Python string, modelled as its list of characters. -/
abbrev Str : Type := List Char

/-- Literal coercion from a Lean string literal to the model. -/
def str (s : String) : Str := s.data

/-- Characters removed by the Python str.strip and str.rstrip methods
(ASCII whitespace: space, tab, newline, carriage return, vertical tab,
form feed). -/
def pyIsSpace (c : Char) : Bool :=
  c = ' ' || c = '\t' || c = '\n' || c = '\r' || c = '\x0b' || c = '\x0c'

/-- Python str.rstrip with no argument: drop trailing whitespace. -/
def pyRstrip (s : Str) : Str :=
  (s.reverse.dropWhile pyIsSpace).reverse

/-- Python str.lstrip with no argument: drop leading whitespace. -/
def pyLstrip (s : Str) : Str :=
  s.dropWhile pyIsSpace

/-- Python str.strip with no argument: drop whitespace on both ends. -/
def pyStrip (s : Str) : Str :=
  pyRstrip (pyLstrip s)

/-- Python str.lower on the ASCII fragment: lowercase every character. -/
def lower (s : Str) : Str :=
  s.map Char.toLower

/-- Python s.startswith(single character c). -/
def startsWithCh (c : Char) (s : Str) : Bool :=
  match s with
  | [] => false
  | a :: _ => a = c

/-- Python s.startswith(p) for a string p. -/
def startsWithStr (p s : Str) : Bool :=
  List.isPrefixOf (p : List Char) s

/-- Python str.isdigit on the ASCII fragment: nonempty and all ASCII digits. -/
def isdigit (s : Str) : Bool :=
  !s.isEmpty && s.all Char.isDigit

/-- Python s.lstrip of a dash argument: drop every leading dash. -/
def lstripDash (s : Str) : Str :=
  s.dropWhile (fun c => c = '-')

/-- Numeric value of a list of ASCII digit characters. -/
def digitsToNat (s : Str) : Nat :=
  s.foldl (fun acc c => 10 * acc + (c.toNat - 48)) 0

/-- Python int() applied to a string.  The scripts only reach this call on
strings made of leading dashes followed by ASCII digits (the guard
x.lstrip(dash).isdigit() holds first), so the model covers an optional
single sign followed by one or more ASCII digits and returns none
(modelling the ValueError) otherwise. -/
def pyInt (s : Str) : Option Int :=
  let t := pyStrip s
  if startsWithCh '-' t then
    if isdigit t.tail then some (-(digitsToNat t.tail : Int)) else none
  else if startsWithCh '+' t then
    if isdigit t.tail then some ((digitsToNat t.tail : Int)) else none
  else if isdigit t then some ((digitsToNat t : Int)) else none

/-- An entry of the blacklist: (main value, inline comment), both strings,
as produced by read_file in scripts/merge_blacklist.py. -/
abbrev Entry : Type := Str × Str

/-- split_main_and_comment from scripts/merge_blacklist.py: split a line on
the first hash character; the part before is the value (stripped), the part
after is the comment (stripped); no hash means an empty comment. -/
def split_main_and_comment (line : Str) : Str × Str :=
  if '#' ∈ line then
    (pyStrip (line.takeWhile (fun c => c ≠ '#')),
     pyStrip ((line.dropWhile (fun c => c ≠ '#')).tail))
  else (pyStrip line, (str ""))

/-- The body of the read_file loop from scripts/merge_blacklist.py: while in
header mode, blank or hash-led (rstripped) lines accumulate into the header;
the first other line ends header mode permanently; body lines with an empty
main part are dropped. -/
def readLinesAux : List Str → Bool → List Str × List Entry
  | [], _ => ([], [])
  | raw :: rest, header_done =>
    let s := pyRstrip raw
    if !header_done && (decide (s = (str "")) || startsWithCh '#' s) then
      let r := readLinesAux rest header_done
      (s :: r.1, r.2)
    else
      let r := readLinesAux rest true
      let mc := split_main_and_comment s
      if mc.1 = (str "") then r else (r.1, (mc.1, mc.2) :: r.2)

/-- Python str.splitlines on newline-separated text: split on the newline
character, without a trailing empty segment. -/
def splitLines : Str → List Str
  | [] => [[]]
  | c :: rest =>
    if c = '\n' then ([] : Str) :: splitLines rest
    else
      match splitLines rest with
      | [] => [[c]]
      | l :: ls => (c :: l) :: ls

/-- Python str.splitlines (newline terminators only): like splitting on the
newline character but an empty text has no lines and a trailing newline
produces no trailing empty line. -/
def splitlinesPy (s : Str) : List Str :=
  if s = (str "") then []
  else
    let parts := splitLines s
    if parts.getLast? = some (str "") then parts.dropLast else parts

/-- read_file from scripts/merge_blacklist.py.  The filesystem is modelled
by an Option: none stands for a path whose file does not exist, some text
for an existing file with the given contents. -/
def read_file (content : Option Str) : List Str × List Entry :=
  match content with
  | none => ([], [])
  | some text => readLinesAux (splitlinesPy text) false

/-- normalize_entry from scripts/merge_blacklist.py: usernames (values
starting with the at sign) are stripped and lowercased, anything else is
only stripped. -/
def normalize_entry (entry : Str) : Str :=
  if startsWithCh '@' entry then lower (pyStrip entry)
  else pyStrip entry

/-- The sort key type of merge_entries: Python builds the pair (0, int(x))
for numeric values and (1, x.lower()) for the rest; tuples with distinct
first components never compare the second, so the pair is a sum. -/
inductive SKey : Type
  | num : Int → SKey
  | strv : Str → SKey

deriving instance DecidableEq for SKey

/-- Python comparison of two character lists (lexicographic by code point). -/
def strLt : Str → Str → Bool
  | _, [] => false
  | [], _ :: _ => true
  | a :: as, b :: bs =>
    if a.toNat < b.toNat then true
    else if b.toNat < a.toNat then false
    else strLt as bs

/-- Python comparison of two sort keys. -/
def skeyLt : SKey → SKey → Bool
  | .num a, .num b => decide (a < b)
  | .num _, .strv _ => true
  | .strv _, .num _ => false
  | .strv a, .strv b => strLt a b

/-- sort_key from merge_entries in scripts/merge_blacklist.py: if the value
with every leading dash removed is all digits, the key is (0, int(value)),
where int can raise (none); otherwise the key is (1, value.lower()). -/
def sort_key (item : Entry) : Option SKey :=
  let x := item.1
  if isdigit (lstripDash x) then (pyInt x).map SKey.num
  else some (SKey.strv (lower x))

/-- The deduplication loop of merge_entries: iterate over old ++ new,
skipping entries whose normalized value was already seen, and storing the
normalized value with the original comment otherwise. -/
def mergeDedup : List Entry → List Str → List Entry
  | [], _ => []
  | e :: rest, seen =>
    let norm := normalize_entry e.1
    if norm ∈ seen then mergeDedup rest seen
    else
      let main_out := normalize_entry e.1
      let comment_out := e.2
      (main_out, comment_out) :: mergeDedup rest (norm :: seen)

/-- Decorate every entry with its sort key, left to right; the first key
computation that raises aborts the whole sort, as in Python sorted. -/
def attachKeys : List Entry → Option (List (SKey × Entry))
  | [] => some []
  | e :: rest =>
    match sort_key e, attachKeys rest with
    | some k, some ps => some ((k, e) :: ps)
    | _, _ => none

/-- Stable insertion of a decorated entry: it goes before the first element
it compares strictly below, hence after every earlier element with an equal
key, as in Python stable sort. -/
def insertPair (x : SKey × Entry) : List (SKey × Entry) → List (SKey × Entry)
  | [] => [x]
  | y :: ys => if skeyLt x.1 y.1 then x :: y :: ys else y :: insertPair x ys

/-- Stable sort of the decorated entries: fold the input from the left,
inserting each element into the already sorted accumulator. -/
def sortPairs (l : List (SKey × Entry)) : List (SKey × Entry) :=
  l.foldl (fun acc x => insertPair x acc) []

/-- merge_entries from scripts/merge_blacklist.py: deduplicate old ++ new by
normalized value (first occurrence wins, values stored normalized), then
sort with sort_key; none models the ValueError that int raises inside
sort_key on values such as a double dash followed by digits. -/
def merge_entries (old new : List Entry) : Option (List Entry) :=
  let merged := mergeDedup (old ++ new) []
  match attachKeys merged with
  | some ps => some ((sortPairs ps).map Prod.snd)
  | none => none

/-- The fixed freshness-marker line start used by build_contents. -/
def MERGED_MARKER : Str := str "# Merged on "

/-- render_entry from build_contents in scripts/merge_blacklist.py. -/
def render_entry (item : Entry) : Str :=
  if item.2 ≠ (str "") then item.1 ++ (str "  # ") ++ item.2
  else item.1

/-- Python newline.join of a list of strings. -/
def joinNL : List Str → Str
  | [] => []
  | [x] => x
  | x :: xs => x ++ '\n' :: joinNL xs

/-- Python blank-line join (two newlines) of a list of strings. -/
def joinBlank : List Str → Str
  | [] => []
  | [x] => x
  | x :: xs => x ++ '\n' :: '\n' :: joinBlank xs

/-- build_contents from scripts/merge_blacklist.py.  The current UTC
timestamp produced by datetime.now is passed in as a parameter. -/
def build_contents (header : List Str) (entries : List Entry)
    (timestamp : Str) : Str :=
  let gen_line : Str := MERGED_MARKER ++ timestamp
  let header_filtered := header.filter (fun h => !startsWithStr MERGED_MARKER h)
  let header_out := header_filtered ++ [gen_line]
  let body := joinNL (entries.map render_entry)
  let parts : List Str :=
    (if header_out.isEmpty then [] else [joinNL header_out]) ++
    (if body = (str "") then [] else [body])
  joinBlank parts ++ ['\n']

/-- A violation reported by the validator: (1-based line number, stripped
line, reason). -/
abbrev Viol : Type := Nat × Str × Str

/-- USERNAME_RE from scripts/validate_blacklist.py: an at sign followed by
5 to 32 characters among ASCII letters, digits and underscore, anchored at
both ends. -/
def USERNAME_RE (s : Str) : Bool :=
  match s with
  | '@' :: rest =>
    decide (5 ≤ rest.length) && decide (rest.length ≤ 32) &&
      rest.all (fun c => c.isAlphanum || c = '_')
  | _ => false

/-- ID_RE from scripts/validate_blacklist.py: an optional leading dash then
one or more digits, anchored at both ends (ASCII fragment of the digit
class). -/
def ID_RE (s : Str) : Bool :=
  match s with
  | '-' :: rest => isdigit rest
  | t => isdigit t

/-- The loop of validate from scripts/validate_blacklist.py, with the seen
set and the 1-based line counter made explicit. -/
def validateAux (seen : List Str) (i : Nat) : List Str → List Viol
  | [] => []
  | raw :: rest =>
    let line := pyStrip raw
    if decide (line = (str "")) || startsWithCh '#' line then
      validateAux seen (i + 1) rest
    else
      let main_part := pyStrip (line.takeWhile (fun c => c ≠ '#'))
      if main_part = (str "") then validateAux seen (i + 1) rest
      else
        let key := lower main_part
        if key ∈ seen then
          (i, line, str "duplicate") :: validateAux seen (i + 1) rest
        else
          if USERNAME_RE main_part || ID_RE main_part then
            validateAux (key :: seen) (i + 1) rest
          else
            (i, line, str "invalid format") :: validateAux (key :: seen) (i + 1) rest

/-- The seen set of validate after processing a list of lines, mirroring
the branch structure of validateAux. -/
def seenAfter (seen : List Str) : List Str → List Str
  | [] => seen
  | raw :: rest =>
    let line := pyStrip raw
    if decide (line = (str "")) || startsWithCh '#' line then
      seenAfter seen rest
    else
      let main_part := pyStrip (line.takeWhile (fun c => c ≠ '#'))
      if main_part = (str "") then seenAfter seen rest
      else
        let key := lower main_part
        if key ∈ seen then seenAfter seen rest
        else seenAfter (key :: seen) rest

/-- validate from scripts/validate_blacklist.py. -/
def validate (lines : List Str) : List Viol :=
  validateAux [] 1 lines

/-- A value after stripping a single leading dash, as in the sort rule the
specification states for the merge ordering. -/
def stripOneDash (s : Str) : Str :=
  if startsWithCh '-' s then s.tail else s

/-- The integer value of a numeric entry value (optional single leading
dash then digits), as in the sort rule the specification states. -/
def specIntValue (s : Str) : Int :=
  if startsWithCh '-' s then -(digitsToNat s.tail : Int)
  else (digitsToNat s : Int)

/-- The composite sort key in the words of the specification: entries whose
value, after stripping a single leading dash, consists entirely of digits
sort first, ordered by integer value ascending; all other entries sort
after, ordered case-insensitively by lexicographic value.  This definition
follows the wording of the specification and is compared against the
sort_key of the code. -/
def specSortKey (x : Str) : SKey :=
  if isdigit (stripOneDash x) then SKey.num (specIntValue x)
  else SKey.strv (lower x)

/-- A value whose stripped form begins with the at sign only when the value
itself does.  Whitespace in front of an at sign is exactly the shape on
which normalize_entry fails to lowercase a username. -/
def atStable (v : Str) : Prop :=
  startsWithCh '@' (pyStrip v) = true → startsWithCh '@' v = true

instance (v : Str) : Decidable (atStable v) := by
  unfold atStable; infer_instance

/-- Values on which the int conversion inside sort_key raises: removing
every leading dash leaves a nonempty digit string although there are at
least two leading dashes. -/
def intRaises (x : Str) : Bool :=
  isdigit (lstripDash x) && decide (2 ≤ (x.takeWhile (fun c => c = '-')).length)

/-- Number of lines of a text that start with the freshness-marker text,
lines being the newline-separated segments. -/
def markerLineCount (t : Str) : Nat :=
  (splitLines t).countP (fun ln => startsWithStr MERGED_MARKER ln)

/-- The text ends with exactly one trailing newline character. -/
def endsOneNL (t : Str) : Prop :=
  t.getLast? = some '\n' ∧ t.dropLast.getLast? ≠ some '\n'

instance (t : Str) : Decidable (endsOneNL t) := by
  unfold endsOneNL; infer_instance

/-! Character-level facts about the ASCII model. -/

theorem char_eq_iff_toNat (a b : Char) : a = b ↔ a.toNat = b.toNat := by
  constructor
  · intro h; rw [h]
  · intro h; apply Char.ext; apply UInt32.ext; exact h

theorem toNat_ofNat_valid (n : Nat) (h : Nat.isValidChar n) :
    (Char.ofNat n).toNat = n := by
  unfold Char.ofNat
  rw [dif_pos h]
  rfl

theorem toLower_def (c : Char) :
    Char.toLower c = if 65 ≤ c.toNat ∧ c.toNat ≤ 90 then Char.ofNat (c.toNat + 32) else c :=
  rfl

theorem toLower_toNat_of_upper (c : Char) (h : 65 ≤ c.toNat ∧ c.toNat ≤ 90) :
    (Char.toLower c).toNat = c.toNat + 32 := by
  rw [toLower_def, if_pos h]
  exact toNat_ofNat_valid _ (Or.inl (by omega))

theorem toLower_of_not_upper (c : Char) (h : ¬ (65 ≤ c.toNat ∧ c.toNat ≤ 90)) :
    Char.toLower c = c := by
  rw [toLower_def, if_neg h]

theorem toLower_toLower (c : Char) :
    Char.toLower (Char.toLower c) = Char.toLower c := by
  by_cases h : 65 ≤ c.toNat ∧ c.toNat ≤ 90
  · have h1 : (Char.toLower c).toNat = c.toNat + 32 := toLower_toNat_of_upper c h
    apply toLower_of_not_upper
    omega
  · rw [toLower_of_not_upper c h]
    exact toLower_of_not_upper c h

theorem pyIsSpace_true_iff (c : Char) :
    pyIsSpace c = true ↔
      (c.toNat = 32 ∨ c.toNat = 9 ∨ c.toNat = 10 ∨ c.toNat = 13 ∨
        c.toNat = 11 ∨ c.toNat = 12) := by
  unfold pyIsSpace
  simp only [Bool.or_eq_true, decide_eq_true_eq, char_eq_iff_toNat]
  have e1 : (' ').toNat = 32 := by decide
  have e2 : ('\t').toNat = 9 := by decide
  have e3 : ('\n').toNat = 10 := by decide
  have e4 : ('\r').toNat = 13 := by decide
  have e5 : ('\x0b').toNat = 11 := by decide
  have e6 : ('\x0c').toNat = 12 := by decide
  rw [e1, e2, e3, e4, e5, e6]
  omega

theorem pyIsSpace_toLower (c : Char) :
    pyIsSpace (Char.toLower c) = pyIsSpace c := by
  by_cases h : 65 ≤ c.toNat ∧ c.toNat ≤ 90
  · have h1 : (Char.toLower c).toNat = c.toNat + 32 := toLower_toNat_of_upper c h
    have h2 : pyIsSpace (Char.toLower c) = false := by
      rw [← Bool.not_eq_true]
      intro hs
      rw [pyIsSpace_true_iff] at hs
      omega
    have h3 : pyIsSpace c = false := by
      rw [← Bool.not_eq_true]
      intro hs
      rw [pyIsSpace_true_iff] at hs
      omega
    rw [h2, h3]
  · rw [toLower_of_not_upper c h]

theorem toLower_eq_at_iff (c : Char) : Char.toLower c = '@' ↔ c = '@' := by
  constructor
  · intro h
    by_cases hu : 65 ≤ c.toNat ∧ c.toNat ≤ 90
    · exfalso
      have h1 : (Char.toLower c).toNat = c.toNat + 32 := toLower_toNat_of_upper c hu
      rw [char_eq_iff_toNat] at h
      have : ('@').toNat = 64 := by decide
      omega
    · rwa [toLower_of_not_upper c hu] at h
  · intro h; rw [h]; decide

theorem isDigit_toNat (c : Char) :
    c.isDigit = true ↔ 48 ≤ c.toNat ∧ c.toNat ≤ 57 := by
  unfold Char.isDigit
  simp only [Bool.and_eq_true, decide_eq_true_eq]
  constructor
  · intro ⟨h1, h2⟩
    exact ⟨h1, h2⟩
  · intro ⟨h1, h2⟩
    exact ⟨h1, h2⟩

theorem isDigit_not_space (c : Char) (h : c.isDigit = true) : pyIsSpace c = false := by
  rw [isDigit_toNat] at h
  rw [← Bool.not_eq_true]
  intro hs
  rw [pyIsSpace_true_iff] at hs
  omega

theorem dash_not_space : pyIsSpace '-' = false := by decide

/-! Facts about stripping and lowercasing. -/

theorem head_dropWhile_false (p : Char → Bool) :
    ∀ (l : Str) (c : Char), (l.dropWhile p).head? = some c → p c = false
  | [], c, h => by simp [List.dropWhile] at h
  | a :: l, c, h => by
    rw [List.dropWhile_cons] at h
    by_cases hp : p a = true
    · rw [if_pos hp] at h
      exact head_dropWhile_false p l c h
    · rw [if_neg hp] at h
      simp at h
      rw [h] at hp
      exact Bool.not_eq_true _ |>.mp hp

theorem dropWhile_eq_self_of_head (p : Char → Bool) (l : Str)
    (h : ∀ c, l.head? = some c → p c = false) : l.dropWhile p = l := by
  cases l with
  | nil => rfl
  | cons a l =>
    rw [List.dropWhile_cons, if_neg]
    rw [h a rfl]
    simp

theorem pyLstrip_eq_self (s : Str)
    (h : ∀ c, s.head? = some c → pyIsSpace c = false) : pyLstrip s = s :=
  dropWhile_eq_self_of_head pyIsSpace s h

theorem pyRstrip_eq_self (s : Str)
    (h : ∀ c, s.getLast? = some c → pyIsSpace c = false) : pyRstrip s = s := by
  unfold pyRstrip
  rw [dropWhile_eq_self_of_head pyIsSpace s.reverse, List.reverse_reverse]
  intro c hc
  rw [List.head?_reverse] at hc
  exact h c hc

theorem pyStrip_eq_self (s : Str)
    (hh : ∀ c, s.head? = some c → pyIsSpace c = false)
    (hl : ∀ c, s.getLast? = some c → pyIsSpace c = false) : pyStrip s = s := by
  unfold pyStrip
  rw [pyLstrip_eq_self s hh, pyRstrip_eq_self s hl]

theorem pyRstrip_isPrefix (s : Str) : pyRstrip s <+: s := by
  unfold pyRstrip
  have h1 : s.reverse.dropWhile pyIsSpace <:+ s.reverse := List.dropWhile_suffix pyIsSpace
  have h2 := List.reverse_prefix.mpr h1
  rwa [List.reverse_reverse] at h2

theorem pyStrip_head_nospace (s : Str) (c : Char)
    (h : (pyStrip s).head? = some c) : pyIsSpace c = false := by
  unfold pyStrip at h
  rcases pyRstrip_isPrefix (pyLstrip s) with ⟨t, ht⟩
  have hh : (pyLstrip s).head? = some c := by
    rw [← ht]
    cases hp : pyRstrip (pyLstrip s) with
    | nil => rw [hp] at h; simp at h
    | cons a l =>
      rw [hp] at h
      simp at h
      simp [hp, h]
  exact head_dropWhile_false pyIsSpace s c hh

theorem pyStrip_last_nospace (s : Str) (c : Char)
    (h : (pyStrip s).getLast? = some c) : pyIsSpace c = false := by
  unfold pyStrip pyRstrip at h
  rw [← List.head?_reverse, List.reverse_reverse] at h
  exact head_dropWhile_false pyIsSpace (pyLstrip s).reverse c h

theorem pyStrip_idem (s : Str) : pyStrip (pyStrip s) = pyStrip s :=
  pyStrip_eq_self (pyStrip s) (pyStrip_head_nospace s) (pyStrip_last_nospace s)

theorem lower_head? (s : Str) : (lower s).head? = s.head?.map Char.toLower := by
  unfold lower
  exact List.head?_map Char.toLower s

theorem lower_getLast? (s : Str) : (lower s).getLast? = s.getLast?.map Char.toLower := by
  unfold lower
  exact List.getLast?_map Char.toLower s

theorem pyStrip_lower_strip (s : Str) :
    pyStrip (lower (pyStrip s)) = lower (pyStrip s) := by
  apply pyStrip_eq_self
  · intro c hc
    rw [lower_head?] at hc
    cases hh : (pyStrip s).head? with
    | none => rw [hh] at hc; simp at hc
    | some a =>
      rw [hh] at hc
      simp at hc
      rw [← hc, pyIsSpace_toLower]
      exact pyStrip_head_nospace s a hh
  · intro c hc
    rw [lower_getLast?] at hc
    cases hh : (pyStrip s).getLast? with
    | none => rw [hh] at hc; simp at hc
    | some a =>
      rw [hh] at hc
      simp at hc
      rw [← hc, pyIsSpace_toLower]
      exact pyStrip_last_nospace s a hh

theorem lower_lower (s : Str) : lower (lower s) = lower s := by
  unfold lower
  rw [List.map_map]
  apply List.map_congr_left
  intro c _
  exact toLower_toLower c

theorem startsWithCh_lower_at (s : Str) :
    startsWithCh '@' (lower s) = startsWithCh '@' s := by
  cases s with
  | nil => rfl
  | cons a l =>
    unfold lower startsWithCh
    simp only [List.map_cons]
    by_cases h : a = '@'
    · rw [h]
      simp [toLower_eq_at_iff]
    · have : ¬ (Char.toLower a = '@') := fun hc => h ((toLower_eq_at_iff a).mp hc)
      simp [h, this]

/-! The normalizer is idempotent on values that do not hide an at sign
behind leading whitespace. -/

theorem startsWithCh_iff_head (c : Char) (s : Str) :
    startsWithCh c s = true ↔ s.head? = some c := by
  cases s with
  | nil => simp [startsWithCh]
  | cons a l =>
    unfold startsWithCh
    simp only [List.head?_cons, Option.some.injEq, decide_eq_true_eq]

theorem head_pyRstrip (v : Str) (c : Char) (hc : v.head? = some c)
    (hns : pyIsSpace c = false) : (pyRstrip v).head? = some c := by
  have hne : pyRstrip v ≠ [] := by
    intro h0
    have hd : v.reverse.dropWhile pyIsSpace = [] := by
      have := congrArg List.reverse h0
      unfold pyRstrip at this
      rwa [List.reverse_reverse, List.reverse_nil] at this
    rw [List.dropWhile_eq_nil_iff] at hd
    have hcm : c ∈ v.reverse := by
      rw [List.mem_reverse]
      exact List.mem_of_mem_head? hc
    rw [hd c hcm] at hns
    exact absurd hns (by simp)
  rcases pyRstrip_isPrefix v with ⟨t, ht⟩
  cases hp : pyRstrip v with
  | nil => exact absurd hp hne
  | cons a l =>
    have hv : v.head? = some a := by
      rw [← ht, hp]
      rfl
    rw [hc] at hv
    simp at hv
    simp [hv]

theorem startsWith_pyStrip (v : Str) (c : Char) (h : startsWithCh c v = true)
    (hns : pyIsSpace c = false) : startsWithCh c (pyStrip v) = true := by
  rw [startsWithCh_iff_head] at h
  have hls : pyLstrip v = v := by
    apply pyLstrip_eq_self
    intro d hd
    rw [h] at hd
    simp at hd
    rw [← hd]
    exact hns
  rw [startsWithCh_iff_head]
  unfold pyStrip
  rw [hls]
  exact head_pyRstrip v c h hns

theorem normalize_entry_idem (v : Str) (h : atStable v) :
    normalize_entry (normalize_entry v) = normalize_entry v := by
  by_cases hat : startsWithCh '@' v = true
  · have hs : startsWithCh '@' (pyStrip v) = true :=
      startsWith_pyStrip v '@' hat (by decide)
    have hl : startsWithCh '@' (lower (pyStrip v)) = true := by
      rw [startsWithCh_lower_at]
      exact hs
    unfold normalize_entry
    rw [if_pos hat, if_pos hl, pyStrip_lower_strip, lower_lower]
  · have hs : ¬ startsWithCh '@' (pyStrip v) = true := fun hc => hat (h hc)
    unfold normalize_entry
    rw [if_neg hat, if_neg hs, pyStrip_idem]

/-! The deduplication loop: its output values are the normalized input
values outside the initial seen set, each exactly once. -/

theorem mergeDedup_fst_mem (l : List Entry) (seen : List Str) (x : Str) :
    x ∈ (mergeDedup l seen).map Prod.fst ↔
      (x ∉ seen ∧ x ∈ l.map (fun e => normalize_entry e.1)) := by
  induction l generalizing seen with
  | nil => simp [mergeDedup]
  | cons e rest ih =>
    by_cases hm : normalize_entry e.1 ∈ seen
    · simp only [mergeDedup, if_pos hm]
      rw [ih]
      simp only [List.map_cons, List.mem_cons]
      constructor
      · rintro ⟨h1, h2⟩
        exact ⟨h1, Or.inr h2⟩
      · rintro ⟨h1, h2⟩
        rcases h2 with hx | hx
        · exact absurd (hx ▸ hm) h1
        · exact ⟨h1, hx⟩
    · simp only [mergeDedup, if_neg hm]
      simp only [List.map_cons, List.mem_cons]
      rw [ih]
      constructor
      · rintro (hx | ⟨h1, h2⟩)
        · subst hx
          exact ⟨hm, Or.inl rfl⟩
        · exact ⟨fun hc => h1 (List.mem_cons_of_mem _ hc), Or.inr h2⟩
      · rintro ⟨h1, hx | h2⟩
        · exact Or.inl hx
        · by_cases hxe : x = normalize_entry e.1
          · exact Or.inl hxe
          · refine Or.inr ⟨?_, h2⟩
            intro hc
            rcases List.mem_cons.mp hc with hc1 | hc2
            · exact hxe hc1
            · exact h1 hc2

theorem mergeDedup_fst_nodup (l : List Entry) (seen : List Str) :
    ((mergeDedup l seen).map Prod.fst).Nodup := by
  induction l generalizing seen with
  | nil => simp [mergeDedup]
  | cons e rest ih =>
    by_cases hm : normalize_entry e.1 ∈ seen
    · simp only [mergeDedup, if_pos hm]
      exact ih _
    · simp only [mergeDedup, if_neg hm]
      rw [List.map_cons, List.nodup_cons]
      refine ⟨?_, ih _⟩
      intro hc
      have := (mergeDedup_fst_mem rest (normalize_entry e.1 :: seen) _).mp hc
      exact this.1 (List.mem_cons_self _ _)

theorem mergeDedup_shape (l : List Entry) (seen : List Str) (e : Entry)
    (h : e ∈ mergeDedup l seen) :
    ∃ e0, e0 ∈ l ∧ e.1 = normalize_entry e0.1 ∧ e.2 = e0.2 := by
  induction l generalizing seen with
  | nil => simp [mergeDedup] at h
  | cons a rest ih =>
    by_cases hm : normalize_entry a.1 ∈ seen
    · simp only [mergeDedup, if_pos hm] at h
      rcases ih _ h with ⟨e0, he0, hv, hc⟩
      exact ⟨e0, List.mem_cons_of_mem _ he0, hv, hc⟩
    · simp only [mergeDedup, if_neg hm] at h
      rcases List.mem_cons.mp h with h1 | h1
      · exact ⟨a, List.mem_cons_self _ _, by rw [h1], by rw [h1]⟩
      · rcases ih _ h1 with ⟨e0, he0, hv, hc⟩
        exact ⟨e0, List.mem_cons_of_mem _ he0, hv, hc⟩

/-! The comparison used by the sort is a strict linear order. -/

theorem strLt_asymm : ∀ (a b : Str), strLt a b = true → strLt b a = false
  | a, [], h => by cases a <;> simp [strLt] at h
  | [], _ :: _, _ => by simp [strLt]
  | a :: as, b :: bs, h => by
    unfold strLt at h ⊢
    by_cases h1 : a.toNat < b.toNat
    · rw [if_neg (by omega : ¬ b.toNat < a.toNat), if_pos h1]
    · by_cases h2 : b.toNat < a.toNat
      · rw [if_neg h1, if_pos h2] at h
        exact absurd h (by simp)
      · rw [if_neg h1, if_neg h2] at h
        rw [if_neg h2, if_neg h1]
        exact strLt_asymm as bs h

theorem strLt_trans : ∀ (a b c : Str),
    strLt a b = true → strLt b c = true → strLt a c = true
  | a, b, [], _, hbc => by cases b <;> simp [strLt] at hbc
  | [], _ :: _, _ :: _, _, _ => by simp [strLt]
  | _ :: _, [], _ :: _, hab, _ => by simp [strLt] at hab
  | a :: as, b :: bs, c :: cs, hab, hbc => by
    unfold strLt at hab hbc ⊢
    by_cases h1 : a.toNat < b.toNat
    · by_cases h2 : b.toNat < c.toNat
      · rw [if_pos (by omega : a.toNat < c.toNat)]
      · by_cases h3 : c.toNat < b.toNat
        · rw [if_neg h2, if_pos h3] at hbc
          exact absurd hbc (by simp)
        · rw [if_pos (by omega : a.toNat < c.toNat)]
    · by_cases h4 : b.toNat < a.toNat
      · rw [if_neg h1, if_pos h4] at hab
        exact absurd hab (by simp)
      · by_cases h2 : b.toNat < c.toNat
        · rw [if_pos (by omega : a.toNat < c.toNat)]
        · by_cases h3 : c.toNat < b.toNat
          · rw [if_neg h2, if_pos h3] at hbc
            exact absurd hbc (by simp)
          · rw [if_neg h1, if_neg h4] at hab
            rw [if_neg h2, if_neg h3] at hbc
            rw [if_neg (by omega : ¬ a.toNat < c.toNat),
              if_neg (by omega : ¬ c.toNat < a.toNat)]
            exact strLt_trans as bs cs hab hbc

theorem strLt_eq_of_both_false : ∀ (a b : Str),
    strLt a b = false → strLt b a = false → a = b
  | [], [], _, _ => rfl
  | [], _ :: _, h, _ => by simp [strLt] at h
  | _ :: _, [], _, h => by simp [strLt] at h
  | a :: as, b :: bs, h1, h2 => by
    unfold strLt at h1 h2
    by_cases ha : a.toNat < b.toNat
    · rw [if_pos ha] at h1
      exact absurd h1 (by simp)
    · by_cases hb : b.toNat < a.toNat
      · rw [if_pos hb] at h2
        exact absurd h2 (by simp)
      · rw [if_neg ha, if_neg hb] at h1
        rw [if_neg hb, if_neg ha] at h2
        have hc : a = b := (char_eq_iff_toNat a b).mpr (by omega)
        rw [hc, strLt_eq_of_both_false as bs h1 h2]

theorem skeyLt_asymm (a b : SKey) (h : skeyLt a b = true) : skeyLt b a = false := by
  cases a with
  | num x =>
    cases b with
    | num y =>
      simp only [skeyLt, decide_eq_true_eq] at h
      simp only [skeyLt, decide_eq_false_iff_not]
      omega
    | strv s => simp [skeyLt]
  | strv s =>
    cases b with
    | num y => simp [skeyLt] at h
    | strv t => exact strLt_asymm s t h

theorem skeyLt_trans (a b c : SKey) (hab : skeyLt a b = true)
    (hbc : skeyLt b c = true) : skeyLt a c = true := by
  cases a with
  | num x =>
    cases b with
    | num y =>
      cases c with
      | num z =>
        simp only [skeyLt, decide_eq_true_eq] at hab hbc ⊢
        omega
      | strv t => simp [skeyLt]
    | strv s =>
      cases c with
      | num z => simp [skeyLt] at hbc
      | strv t => simp [skeyLt]
  | strv s =>
    cases b with
    | num y => simp [skeyLt] at hab
    | strv t =>
      cases c with
      | num z => simp [skeyLt] at hbc
      | strv u => exact strLt_trans s t u hab hbc

theorem skeyLt_eq_of_both_false (a b : SKey) (h1 : skeyLt a b = false)
    (h2 : skeyLt b a = false) : a = b := by
  cases a with
  | num x =>
    cases b with
    | num y =>
      simp only [skeyLt, decide_eq_false_iff_not] at h1 h2
      have : x = y := by omega
      rw [this]
    | strv s => simp [skeyLt] at h1
  | strv s =>
    cases b with
    | num y => simp [skeyLt] at h2
    | strv t => rw [strLt_eq_of_both_false s t h1 h2]

theorem skeyLt_negtrans (a b c : SKey) (h1 : skeyLt b a = false)
    (h2 : skeyLt c b = false) : skeyLt c a = false := by
  cases hca : skeyLt c a with
  | false => rfl
  | true =>
    exfalso
    cases hab : skeyLt a b with
    | true =>
      have h3 := skeyLt_trans c a b hca hab
      rw [h3] at h2
      exact absurd h2 (by simp)
    | false =>
      have hEq := skeyLt_eq_of_both_false a b hab h1
      rw [← hEq, hca] at h2
      exact absurd h2 (by simp)

/-! The stable insertion sort permutes its input and sorts it by key. -/

theorem insertPair_perm (x : SKey × Entry) :
    ∀ (l : List (SKey × Entry)), List.Perm (insertPair x l) (x :: l)
  | [] => List.Perm.refl _
  | y :: ys => by
    unfold insertPair
    by_cases h : skeyLt x.1 y.1 = true
    · rw [if_pos h]
    · rw [if_neg h]
      exact (List.Perm.cons y (insertPair_perm x ys)).trans (List.Perm.swap x y ys)

theorem mem_insertPair (x y : SKey × Entry) (l : List (SKey × Entry))
    (h : y ∈ insertPair x l) : y = x ∨ y ∈ l :=
  List.mem_cons.mp ((insertPair_perm x l).mem_iff.mp h)

theorem insertPair_pairwise (x : SKey × Entry) (l : List (SKey × Entry))
    (h : List.Pairwise (fun p q => skeyLt q.1 p.1 = false) l) :
    List.Pairwise (fun p q => skeyLt q.1 p.1 = false) (insertPair x l) := by
  induction l with
  | nil => simp [insertPair]
  | cons y ys ih =>
    rcases List.pairwise_cons.mp h with ⟨hy, hys⟩
    unfold insertPair
    by_cases hlt : skeyLt x.1 y.1 = true
    · rw [if_pos hlt]
      apply List.pairwise_cons.mpr
      refine ⟨?_, h⟩
      intro z hz
      rcases List.mem_cons.mp hz with hz1 | hz2
      · rw [hz1]
        exact skeyLt_asymm _ _ hlt
      · cases hza : skeyLt z.1 x.1 with
        | false => rfl
        | true =>
          have h3 := skeyLt_trans z.1 x.1 y.1 hza hlt
          rw [hy z hz2] at h3
          exact absurd h3 (by simp)
    · rw [if_neg hlt]
      apply List.pairwise_cons.mpr
      refine ⟨?_, ih hys⟩
      intro z hz
      rcases mem_insertPair x z ys hz with hz1 | hz2
      · rw [hz1]
        simpa using hlt
      · exact hy z hz2

theorem sortPairs_perm_aux : ∀ (l acc : List (SKey × Entry)),
    List.Perm (List.foldl (fun acc x => insertPair x acc) acc l) (acc ++ l)
  | [], acc => by simp
  | x :: xs, acc => by
    simp only [List.foldl_cons]
    apply (sortPairs_perm_aux xs (insertPair x acc)).trans
    apply ((insertPair_perm x acc).append_right xs).trans
    exact List.perm_middle.symm

theorem sortPairs_perm (l : List (SKey × Entry)) : List.Perm (sortPairs l) l := by
  unfold sortPairs
  simpa using sortPairs_perm_aux l []

theorem sortPairs_pairwise_aux : ∀ (l acc : List (SKey × Entry)),
    List.Pairwise (fun p q => skeyLt q.1 p.1 = false) acc →
    List.Pairwise (fun p q => skeyLt q.1 p.1 = false)
      (List.foldl (fun acc x => insertPair x acc) acc l)
  | [], _, h => h
  | x :: xs, acc, h => by
    simp only [List.foldl_cons]
    exact sortPairs_pairwise_aux xs _ (insertPair_pairwise x acc h)

theorem sortPairs_pairwise (l : List (SKey × Entry)) :
    List.Pairwise (fun p q => skeyLt q.1 p.1 = false) (sortPairs l) :=
  sortPairs_pairwise_aux l [] (by simp)

/-! The key decoration step. -/

theorem attachKeys_map_snd : ∀ (l : List Entry) (ps : List (SKey × Entry)),
    attachKeys l = some ps → ps.map Prod.snd = l
  | [], ps, h => by
    simp [attachKeys] at h
    rw [h]
    rfl
  | e :: rest, ps, h => by
    unfold attachKeys at h
    cases hk : sort_key e with
    | none => rw [hk] at h; simp at h
    | some k =>
      rw [hk] at h
      cases hr : attachKeys rest with
      | none => rw [hr] at h; simp at h
      | some qs =>
        rw [hr] at h
        simp at h
        rw [← h, List.map_cons, attachKeys_map_snd rest qs hr]

theorem attachKeys_key : ∀ (l : List Entry) (ps : List (SKey × Entry)),
    attachKeys l = some ps → ∀ p ∈ ps, sort_key p.2 = some p.1
  | [], ps, h => by
    simp [attachKeys] at h
    rw [h]
    intro p hp
    simp at hp
  | e :: rest, ps, h => by
    unfold attachKeys at h
    cases hk : sort_key e with
    | none => rw [hk] at h; simp at h
    | some k =>
      rw [hk] at h
      cases hr : attachKeys rest with
      | none => rw [hr] at h; simp at h
      | some qs =>
        rw [hr] at h
        simp at h
        intro p hp
        rw [← h] at hp
        rcases List.mem_cons.mp hp with h1 | h1
        · rw [h1]
          exact hk
        · exact attachKeys_key rest qs hr p h1

theorem attachKeys_isSome : ∀ (l : List Entry),
    (∀ e ∈ l, (sort_key e).isSome = true) → ∃ ps, attachKeys l = some ps
  | [], _ => ⟨[], rfl⟩
  | e :: rest, h => by
    have he : (sort_key e).isSome = true := h e (List.mem_cons_self _ _)
    cases hk : sort_key e with
    | none => rw [hk] at he; simp at he
    | some k =>
      rcases attachKeys_isSome rest (fun x hx => h x (List.mem_cons_of_mem _ hx)) with ⟨qs, hqs⟩
      refine ⟨(k, e) :: qs, ?_⟩
      unfold attachKeys
      rw [hk, hqs]

theorem attachKeys_none (l : List Entry) (e : Entry) (he : e ∈ l)
    (h : sort_key e = none) : attachKeys l = none := by
  induction l with
  | nil => simp at he
  | cons a rest ih =>
    unfold attachKeys
    rcases List.mem_cons.mp he with h1 | h1
    · rw [h1] at h
      rw [h]
    · rw [ih h1]
      cases sort_key a <;> rfl

/-! Analysis of the numeric branch of the sort key. -/

theorem isdigit_iff (s : Str) :
    isdigit s = true ↔ s ≠ [] ∧ ∀ c ∈ s, c.isDigit = true := by
  unfold isdigit
  simp [List.isEmpty_iff, List.all_eq_true]

theorem digit_ne_dash (c : Char) (h : c.isDigit = true) : ¬ (c = '-') := by
  intro he
  rw [he] at h
  exact absurd h (by decide)

theorem digit_ne_plus (c : Char) (h : c.isDigit = true) : ¬ (c = '+') := by
  intro he
  rw [he] at h
  exact absurd h (by decide)

theorem lstripDash_cons_of_ne (c : Char) (t : Str) (h : ¬ (c = '-')) :
    lstripDash (c :: t) = c :: t := by
  unfold lstripDash
  rw [List.dropWhile_cons, if_neg]
  simp [h]

theorem lstripDash_cons_dash (t : Str) : lstripDash ('-' :: t) = lstripDash t := by
  unfold lstripDash
  rw [List.dropWhile_cons, if_pos]
  simp

theorem guard_nospace (x : Str) (hg : isdigit (lstripDash x) = true) :
    ∀ c ∈ x, pyIsSpace c = false := by
  intro c hc
  have hx : x.takeWhile (fun c => c = '-') ++ x.dropWhile (fun c => c = '-') = x :=
    List.takeWhile_append_dropWhile _ _
  rw [← hx] at hc
  rcases List.mem_append.mp hc with h1 | h1
  · have := List.mem_takeWhile_imp h1
    simp at this
    rw [this]
    exact dash_not_space
  · have := ((isdigit_iff _).mp hg).2 c h1
    exact isDigit_not_space c this

theorem guard_strip (x : Str) (hg : isdigit (lstripDash x) = true) :
    pyStrip x = x :=
  pyStrip_eq_self x
    (fun c hc => guard_nospace x hg c (List.mem_of_mem_head? hc))
    (fun c hc => guard_nospace x hg c (List.mem_of_mem_getLast? hc))

theorem pyInt_digits (c : Char) (t : Str) (hc : ¬ (c = '-'))
    (hg : isdigit (lstripDash (c :: t)) = true) :
    pyInt (c :: t) = some ((digitsToNat (c :: t) : Int)) := by
  have hx : lstripDash (c :: t) = c :: t := lstripDash_cons_of_ne c t hc
  rw [hx] at hg
  have hstrip : pyStrip (c :: t) = c :: t := by
    apply guard_strip
    rw [hx]
    exact hg
  have hcd : c.isDigit = true :=
    ((isdigit_iff _).mp hg).2 c (List.mem_cons_self _ _)
  have h1 : startsWithCh '-' (c :: t) = false := by
    simp [startsWithCh, hc]
  have h2 : startsWithCh '+' (c :: t) = false := by
    simp [startsWithCh]
    exact digit_ne_plus c hcd
  simp only [pyInt, hstrip, h1, h2, hg]
  rfl

theorem pyInt_dash_digits (t : Str) (ht : isdigit t = true) :
    pyInt ('-' :: t) = some (-(digitsToNat t : Int)) := by
  have hne : t ≠ [] := ((isdigit_iff t).mp ht).1
  have hstrip : pyStrip ('-' :: t) = '-' :: t := by
    apply guard_strip
    rw [lstripDash_cons_dash]
    cases t with
    | nil => exact absurd rfl hne
    | cons c2 t2 =>
      have hcd : c2.isDigit = true :=
        ((isdigit_iff _).mp ht).2 c2 (List.mem_cons_self _ _)
      rw [lstripDash_cons_of_ne c2 t2 (digit_ne_dash c2 hcd)]
      exact ht
  have h1 : startsWithCh '-' ('-' :: t) = true := by simp [startsWithCh]
  simp only [pyInt, hstrip, h1]
  simp [ht]

theorem pyInt_dashdash (t : Str)
    (hg : isdigit (lstripDash ('-' :: '-' :: t)) = true) :
    pyInt ('-' :: '-' :: t) = none := by
  have hstrip := guard_strip _ hg
  have h1 : startsWithCh '-' ('-' :: '-' :: t) = true := by simp [startsWithCh]
  have h2 : isdigit ('-' :: t) = false := by
    rw [← Bool.not_eq_true, isdigit_iff]
    intro h3
    have := h3.2 '-' (List.mem_cons_self _ _)
    exact absurd this (by decide)
  simp only [pyInt, hstrip, h1]
  simp [h2]

theorem sort_key_eq_none_iff (e : Entry) :
    sort_key e = none ↔ intRaises e.1 = true := by
  rcases e with ⟨x, cm⟩
  by_cases hg : isdigit (lstripDash x) = true
  · simp only [sort_key, intRaises, hg, if_pos, Bool.true_and]
    cases x with
    | nil =>
      exfalso
      simp [lstripDash, isdigit, List.dropWhile] at hg
    | cons c t =>
      by_cases hc : c = '-'
      · subst hc
        cases t with
        | nil =>
          exfalso
          have : lstripDash (['-'] : Str) = [] := by
            simp [lstripDash, List.dropWhile]
          rw [this] at hg
          simp [isdigit] at hg
        | cons c2 t2 =>
          by_cases hc2 : c2 = '-'
          · subst hc2
            rw [pyInt_dashdash t2 hg]
            rw [Option.map_none']
            constructor
            · intro _
              rw [List.takeWhile_cons, List.takeWhile_cons]
              simp
            · intro _
              rfl
          · have ht : isdigit (c2 :: t2) = true := by
              rw [lstripDash_cons_dash, lstripDash_cons_of_ne c2 t2 hc2] at hg
              exact hg
            rw [pyInt_dash_digits (c2 :: t2) ht]
            rw [Option.map_some']
            constructor
            · intro h3
              exact absurd h3 (by simp)
            · intro h3
              exfalso
              rw [List.takeWhile_cons, List.takeWhile_cons] at h3
              simp [hc2] at h3
      · rw [pyInt_digits c t hc hg]
        rw [Option.map_some']
        constructor
        · intro h3
          exact absurd h3 (by simp)
        · intro h3
          exfalso
          rw [List.takeWhile_cons] at h3
          simp [hc] at h3
  · simp only [sort_key, intRaises]
    rw [if_neg hg]
    simp only [Bool.and_eq_true, decide_eq_true_eq]
    constructor
    · intro h3
      exact absurd h3 (by simp)
    · intro h3
      exact absurd h3.1 hg

theorem sort_key_agree (e : Entry) (k : SKey) (h : sort_key e = some k) :
    specSortKey e.1 = k := by
  rcases e with ⟨x, cm⟩
  by_cases hg : isdigit (lstripDash x) = true
  · simp only [sort_key, hg, if_pos] at h
    cases x with
    | nil =>
      exfalso
      simp [lstripDash, isdigit, List.dropWhile] at hg
    | cons c t =>
      by_cases hc : c = '-'
      · subst hc
        cases t with
        | nil =>
          exfalso
          have : lstripDash (['-'] : Str) = [] := by
            simp [lstripDash, List.dropWhile]
          rw [this] at hg
          simp [isdigit] at hg
        | cons c2 t2 =>
          by_cases hc2 : c2 = '-'
          · subst hc2
            rw [pyInt_dashdash t2 hg] at h
            simp at h
          · have ht : isdigit (c2 :: t2) = true := by
              rw [lstripDash_cons_dash, lstripDash_cons_of_ne c2 t2 hc2] at hg
              exact hg
            rw [pyInt_dash_digits (c2 :: t2) ht] at h
            simp at h
            have hsw : startsWithCh '-' ('-' :: c2 :: t2) = true := by
              simp [startsWithCh]
            unfold specSortKey stripOneDash specIntValue
            rw [hsw]
            simp only [if_true, List.tail_cons]
            rw [if_pos ht, ← h]
      · rw [pyInt_digits c t hc hg] at h
        simp at h
        have hx : lstripDash (c :: t) = c :: t := lstripDash_cons_of_ne c t hc
        rw [hx] at hg
        have hsw : startsWithCh '-' (c :: t) = false := by
          simp [startsWithCh, hc]
        unfold specSortKey stripOneDash specIntValue
        rw [hsw]
        simp only [Bool.false_eq_true, if_false]
        rw [if_pos hg, ← h]
  · simp only [sort_key] at h
    rw [if_neg hg] at h
    simp at h
    have hspec : isdigit (stripOneDash x) = false := by
      rw [← Bool.not_eq_true]
      intro hsp
      apply hg
      unfold stripOneDash at hsp
      cases x with
      | nil => simp [isdigit] at hsp
      | cons c t =>
        by_cases hc : c = '-'
        · subst hc
          have hsw : startsWithCh '-' ('-' :: t) = true := by simp [startsWithCh]
          rw [hsw] at hsp
          simp only [if_true, List.tail_cons] at hsp
          rw [lstripDash_cons_dash]
          cases t with
          | nil => simp [isdigit] at hsp
          | cons c2 t2 =>
            have hcd : c2.isDigit = true :=
              ((isdigit_iff _).mp hsp).2 c2 (List.mem_cons_self _ _)
            rw [lstripDash_cons_of_ne c2 t2 (digit_ne_dash c2 hcd)]
            exact hsp
        · have hsw : startsWithCh '-' (c :: t) = false := by
            simp [startsWithCh, hc]
          rw [hsw] at hsp
          simp only [Bool.false_eq_true, if_false] at hsp
          rw [lstripDash_cons_of_ne c t hc]
          exact hsp
    unfold specSortKey
    rw [if_neg (by rw [hspec]; simp), ← h]

/-! merge_entries in terms of its three stages. -/

theorem sort_key_depends_fst (e : Entry) : sort_key e = sort_key (e.1, str "") :=
  rfl

theorem merge_entries_eq_stages (old new : List Entry) (l : List Entry)
    (h : merge_entries old new = some l) :
    ∃ ps, attachKeys (mergeDedup (old ++ new) []) = some ps ∧
      l = (sortPairs ps).map Prod.snd := by
  simp only [merge_entries] at h
  cases hk : attachKeys (mergeDedup (old ++ new) []) with
  | none => rw [hk] at h; simp at h
  | some ps =>
    rw [hk] at h
    simp at h
    exact ⟨ps, rfl, h.symm⟩

theorem merge_entries_perm_dedup (old new : List Entry) (l : List Entry)
    (h : merge_entries old new = some l) :
    List.Perm l (mergeDedup (old ++ new) []) := by
  rcases merge_entries_eq_stages old new l h with ⟨ps, hps, hl⟩
  rw [hl, ← attachKeys_map_snd _ ps hps]
  exact List.Perm.map Prod.snd (sortPairs_perm ps)

theorem merge_entries_isSome_iff (old new : List Entry) :
    (∃ l, merge_entries old new = some l) ↔
      ∀ e ∈ mergeDedup (old ++ new) [], (sort_key e).isSome = true := by
  constructor
  · rintro ⟨l, hl⟩ e he
    rcases merge_entries_eq_stages old new l hl with ⟨ps, hps, _⟩
    have hsnd := attachKeys_map_snd _ ps hps
    rw [← hsnd] at he
    rcases List.mem_map.mp he with ⟨p, hp, hpe⟩
    rw [← hpe, attachKeys_key _ ps hps p hp]
    rfl
  · intro h
    rcases attachKeys_isSome _ h with ⟨ps, hps⟩
    refine ⟨(sortPairs ps).map Prod.snd, ?_⟩
    simp only [merge_entries]
    rw [hps]

/-! C1.  The claim quantifies over all entry lists; on lists whose values
hide an at sign behind leading whitespace the normalizer is not idempotent
and the merged output can carry two entries with equal normalized key, so
the claim is corrected by restricting to at-stable values. -/

/-- C1 (counterexample): with old value " @Foo" (leading space) and new
value "@foo", merge_entries keeps both entries, and their values "@Foo" and
"@foo" have the same NormalizedKey, refuting the claim as stated. -/
theorem claim_C1_counterexample :
    merge_entries [(str " @Foo", str "")] [(str "@foo", str "")] =
      some [(str "@Foo", str ""), (str "@foo", str "")] ∧
    ¬ List.Pairwise (fun a b : Entry => normalize_entry a.1 ≠ normalize_entry b.1)
        [(str "@Foo", str ""), (str "@foo", str "")] := by
  constructor
  · rfl
  · intro h
    have := (List.pairwise_cons.mp h).1 (str "@foo", str "") (by simp)
    exact this (by decide)

/-- C1 (amended): if every input value that starts with an at sign after
trimming already starts with it untrimmed, then any list returned by
merge_entries contains no two entries whose values have equal
NormalizedKey (the NormalizedKey of the claim is exactly normalize_entry). -/
theorem claim_C1 (old new : List Entry)
    (hA : ∀ e ∈ old ++ new, atStable e.1) (l : List Entry)
    (h : merge_entries old new = some l) :
    List.Pairwise (fun a b : Entry => normalize_entry a.1 ≠ normalize_entry b.1) l := by
  have hperm := merge_entries_perm_dedup old new l h
  have hnd : ((mergeDedup (old ++ new) []).map Prod.fst).Nodup :=
    mergeDedup_fst_nodup _ _
  have h1 : List.Pairwise (fun a b : Entry => a.1 ≠ b.1)
      (mergeDedup (old ++ new) []) := List.pairwise_map.mp hnd
  have hfix : ∀ e ∈ mergeDedup (old ++ new) [], normalize_entry e.1 = e.1 := by
    intro e he
    rcases mergeDedup_shape _ _ e he with ⟨e0, he0, hv, _⟩
    rw [hv]
    exact normalize_entry_idem e0.1 (hA e0 he0)
  have h2 : List.Pairwise (fun a b : Entry => normalize_entry a.1 ≠ normalize_entry b.1)
      (mergeDedup (old ++ new) []) := by
    apply h1.imp_of_mem
    intro a b ha hb hne
    rw [hfix a ha, hfix b hb]
    exact hne
  exact (hperm.pairwise_iff (fun hxy => fun he => hxy he.symm)).mpr h2

/-- C1 (witness): the amended theorem applied to a concrete merge. -/
theorem claim_C1_witness :
    List.Pairwise (fun a b : Entry => normalize_entry a.1 ≠ normalize_entry b.1)
      [(str "@user", str "x")] :=
  claim_C1 [(str "@User", str "x")] [(str "@user", str "y")] (by decide)
    [(str "@user", str "x")] rfl

/-! C2.  The composite ordering: the code orders by sort_key, which on every
value it accepts coincides with the key the specification words state. -/

/-- C2: every list merge_entries returns is ordered by the composite key of
the specification (numeric values first by integer value, then the rest
case-insensitively lexicographic), and the concrete example sorts as
["2", "10", "@alpha", "@zeta"]. -/
theorem claim_C2 :
    (∀ (old new : List Entry) (l : List Entry), merge_entries old new = some l →
      List.Pairwise
        (fun a b : Entry => skeyLt (specSortKey b.1) (specSortKey a.1) = false) l) ∧
    merge_entries []
        [(str "10", str ""), (str "@zeta", str ""), (str "2", str ""), (str "@alpha", str "")] =
      some [(str "2", str ""), (str "10", str ""), (str "@alpha", str ""), (str "@zeta", str "")] := by
  constructor
  · intro old new l h
    rcases merge_entries_eq_stages old new l h with ⟨ps, hps, hl⟩
    have hsorted := sortPairs_pairwise ps
    have hkeys : ∀ p ∈ sortPairs ps, specSortKey p.2.1 = p.1 := by
      intro p hp
      have hp2 : p ∈ ps := (sortPairs_perm ps).mem_iff.mp hp
      exact sort_key_agree p.2 p.1 (attachKeys_key _ ps hps p hp2)
    rw [hl]
    apply List.pairwise_map.mpr
    apply hsorted.imp_of_mem
    intro p q hp hq hpq
    rw [hkeys p hp, hkeys q hq]
    exact hpq
  · rfl

/-- C2 (witness): the ordering statement evaluated on the concrete merge of
the claim. -/
theorem claim_C2_witness :
    List.Pairwise
      (fun a b : Entry => skeyLt (specSortKey b.1) (specSortKey a.1) = false)
      [(str "2", str ""), (str "10", str ""), (str "@alpha", str ""), (str "@zeta", str "")] :=
  claim_C2.1 []
    [(str "10", str ""), (str "@zeta", str ""), (str "2", str ""), (str "@alpha", str "")]
    _ claim_C2.2

/-! C3.  merge_entries is not total: int() raises on a value such as "--5"
whose every-leading-dash strip is all digits but which has two dashes. -/

/-- C3 (counterexample): on the value "--5" the sort-key computation fails
(int raises a ValueError in the source), so merge_entries returns no list. -/
theorem claim_C3_counterexample :
    merge_entries [(str "--5", str "")] [] = none := rfl

/-- C3 (amended): merge_entries terminates and returns a list whenever no
input value normalizes to a string of two or more leading dashes followed
by digits; only on such values does the int conversion inside sort_key
fail. -/
theorem claim_C3 (old new : List Entry)
    (h : ∀ e ∈ old ++ new, intRaises (normalize_entry e.1) = false) :
    ∃ l, merge_entries old new = some l := by
  apply (merge_entries_isSome_iff old new).mpr
  intro e he
  rcases mergeDedup_shape _ _ e he with ⟨e0, he0, hv, _⟩
  cases hk : sort_key e with
  | none =>
    exfalso
    have hr := (sort_key_eq_none_iff e).mp hk
    rw [hv] at hr
    rw [h e0 he0] at hr
    exact absurd hr (by simp)
  | some k => rfl

/-- C3 (witness): the amended totality applied to concrete entries with a
single-dash numeric value and a username value. -/
theorem claim_C3_witness :
    ∃ l, merge_entries [(str "-5", str "old id")] [(str "@Abcde", str "")] = some l :=
  claim_C3 [(str "-5", str "old id")] [(str "@Abcde", str "")] (by decide)

/-! C4.  Permuting the input multiset preserves the set of output values but
not always their order: distinct values such as "5" and "05" share a sort
key, and the stable sort then keeps them in input order. -/

/-- C4 (counterexample): the two input lists are permutations of the same
multiset, both merges succeed, yet the output value sequences differ, so
the output ordering is not a function of the input multiset. -/
theorem claim_C4_counterexample :
    List.Perm (([(str "5", str ""), (str "05", str "")] : List Entry) ++ [])
      (([(str "05", str ""), (str "5", str "")] : List Entry) ++ []) ∧
    merge_entries [(str "5", str ""), (str "05", str "")] [] =
      some [(str "5", str ""), (str "05", str "")] ∧
    merge_entries [(str "05", str ""), (str "5", str "")] [] =
      some [(str "05", str ""), (str "5", str "")] ∧
    ([(str "5", str ""), (str "05", str "")] : List Entry).map Prod.fst ≠
      ([(str "05", str ""), (str "5", str "")] : List Entry).map Prod.fst := by
  refine ⟨?_, rfl, rfl, by decide⟩
  exact List.Perm.swap (str "05", str "") (str "5", str "") []

/-- C4 (amended): for input lists that are permutations of the same entry
multiset, merge_entries succeeds on one exactly when it succeeds on the
other, and the outputs then carry the same multiset of values; the exact
sequence can differ when two distinct retained values share a sort key. -/
theorem claim_C4 (o n o2 n2 : List Entry) (hp : List.Perm (o ++ n) (o2 ++ n2)) :
    (merge_entries o n).isSome = (merge_entries o2 n2).isSome ∧
    (∀ l l2, merge_entries o n = some l → merge_entries o2 n2 = some l2 →
      List.Perm (l.map Prod.fst) (l2.map Prod.fst)) := by
  have hmem : ∀ x, x ∈ (mergeDedup (o ++ n) []).map Prod.fst ↔
      x ∈ (mergeDedup (o2 ++ n2) []).map Prod.fst := by
    intro x
    rw [mergeDedup_fst_mem, mergeDedup_fst_mem]
    have := (hp.map (fun e : Entry => normalize_entry e.1)).mem_iff (a := x)
    rw [this]
  have hsome : (∃ l, merge_entries o n = some l) ↔
      (∃ l2, merge_entries o2 n2 = some l2) := by
    rw [merge_entries_isSome_iff, merge_entries_isSome_iff]
    constructor
    · intro h e he
      have hx : e.1 ∈ (mergeDedup (o ++ n) []).map Prod.fst := by
        rw [hmem]
        exact List.mem_map_of_mem Prod.fst he
      rcases List.mem_map.mp hx with ⟨e0, he0, hv⟩
      rw [sort_key_depends_fst, ← hv, ← sort_key_depends_fst]
      exact h e0 he0
    · intro h e he
      have hx : e.1 ∈ (mergeDedup (o2 ++ n2) []).map Prod.fst := by
        rw [← hmem]
        exact List.mem_map_of_mem Prod.fst he
      rcases List.mem_map.mp hx with ⟨e0, he0, hv⟩
      rw [sort_key_depends_fst, ← hv, ← sort_key_depends_fst]
      exact h e0 he0
  constructor
  · cases h1 : merge_entries o n with
    | none =>
      cases h2 : merge_entries o2 n2 with
      | none => rfl
      | some l2 =>
        exfalso
        rcases hsome.mpr ⟨l2, h2⟩ with ⟨l, hl⟩
        rw [h1] at hl
        exact absurd hl (by simp)
    | some l =>
      cases h2 : merge_entries o2 n2 with
      | none =>
        exfalso
        rcases hsome.mp ⟨l, h1⟩ with ⟨l2, hl2⟩
        rw [h2] at hl2
        exact absurd hl2 (by simp)
      | some l2 => rfl
  · intro l l2 h1 h2
    have p1 := (merge_entries_perm_dedup o n l h1).map Prod.fst
    have p2 := (merge_entries_perm_dedup o2 n2 l2 h2).map Prod.fst
    have pm : List.Perm ((mergeDedup (o ++ n) []).map Prod.fst)
        ((mergeDedup (o2 ++ n2) []).map Prod.fst) :=
      (List.perm_ext_iff_of_nodup (mergeDedup_fst_nodup _ _)
        (mergeDedup_fst_nodup _ _)).mpr hmem
    exact (p1.trans pm).trans p2.symm

/-- C4 (witness): the amended statement applied to a concrete permuted
pair of inputs. -/
theorem claim_C4_witness :
    (merge_entries [(str "7", str "a")] [(str "@Xyzzy", str "")]).isSome =
      (merge_entries [] [(str "@Xyzzy", str ""), (str "7", str "a")]).isSome ∧
    (∀ l l2, merge_entries [(str "7", str "a")] [(str "@Xyzzy", str "")] = some l →
      merge_entries [] [(str "@Xyzzy", str ""), (str "7", str "a")] = some l2 →
      List.Perm (l.map Prod.fst) (l2.map Prod.fst)) :=
  claim_C4 [(str "7", str "a")] [(str "@Xyzzy", str "")]
    [] [(str "@Xyzzy", str ""), (str "7", str "a")]
    (List.Perm.swap (str "@Xyzzy", str "") (str "7", str "a") [])

/-! C5 and C6: concrete first-occurrence-wins and case-insensitive
deduplication behavior. -/

/-- C5: on a duplicate numeric key the first occurrence wins for both the
stored value and the comment; the later entry and its comment are dropped. -/
theorem claim_C5 :
    merge_entries [(str "123", str "spam")] [(str "123", str "other reason")] =
      some [(str "123", str "spam")] := rfl

/-- C6: usernames are deduplicated case-insensitively and stored lowercased;
for any comments the merged result is the single entry ("@user", first
comment). -/
theorem claim_C6 (c1 c2 : Str) :
    merge_entries [(str "@User", c1)] [(str "@user", c2)] =
      some [(str "@user", c1)] := rfl

/-- C6 (witness): the theorem at concrete comments. -/
theorem claim_C6_witness :
    merge_entries [(str "@User", str "why")] [(str "@user", str "other")] =
      some [(str "@user", str "why")] :=
  claim_C6 (str "why") (str "other")

/-! C10: a missing file reads as the empty document. -/

/-- C10: read_file on a nonexistent path returns an empty header and an
empty entry list instead of failing. -/
theorem claim_C10 : read_file none = ([], []) := rfl

/-! Line structure of the rendered text. -/

theorem isPrefixOf_append_self : ∀ (p t : Str), List.isPrefixOf p (p ++ t) = true
  | [], _ => by simp [List.isPrefixOf]
  | c :: p, t => by
    simp only [List.cons_append, List.isPrefixOf, Bool.and_eq_true, beq_self_eq_true]
    exact ⟨trivial, isPrefixOf_append_self p t⟩

theorem splitLines_cons_nl (z : Str) : splitLines ('\n' :: z) = [] :: splitLines z := by
  simp [splitLines]

theorem splitLines_noNL_append (x : Str) (h : '\n' ∉ x) (r : Str) :
    splitLines (x ++ '\n' :: r) = x :: splitLines r := by
  induction x with
  | nil => simp [splitLines]
  | cons c t ih =>
    have hc : ¬ (c = '\n') := fun he => h (by rw [he]; exact List.mem_cons_self _ _)
    simp only [List.cons_append, splitLines, List.append_eq]
    rw [if_neg hc, ih (fun hm => h (List.mem_cons_of_mem c hm))]

theorem splitLines_joinNL : ∀ (l : List Str), (∀ s ∈ l, '\n' ∉ s) → l ≠ [] →
    ∀ r, splitLines (joinNL l ++ '\n' :: r) = l ++ splitLines r
  | [], _, hne, _ => absurd rfl hne
  | [x], h, _, r => by
    simp only [joinNL]
    rw [splitLines_noNL_append x (h x (List.mem_cons_self _ _)) r]
    rfl
  | x :: y :: ys, h, _, r => by
    have hx : '\n' ∉ x := h x (List.mem_cons_self _ _)
    have htail : ∀ s ∈ y :: ys, '\n' ∉ s := fun s hs => h s (List.mem_cons_of_mem _ hs)
    have heq : joinNL (x :: y :: ys) = x ++ '\n' :: joinNL (y :: ys) := rfl
    rw [heq, List.append_assoc, List.cons_append]
    rw [splitLines_noNL_append x hx _]
    rw [splitLines_joinNL (y :: ys) htail (by simp) r]
    rfl

theorem getLast?_isSome_of_ne_nil : ∀ (z : Str), z ≠ [] → ∃ c, z.getLast? = some c
  | [], h => absurd rfl h
  | [c], _ => ⟨c, rfl⟩
  | c :: d :: t, _ => by
    rw [List.getLast?_cons_cons]
    exact getLast?_isSome_of_ne_nil (d :: t) (by simp)

theorem getLast?_append_ne (a b : Str) (hb : b ≠ []) :
    (a ++ b).getLast? = b.getLast? := by
  rcases getLast?_isSome_of_ne_nil b hb with ⟨c, hc⟩
  rw [List.getLast?_append, hc]
  rfl

theorem getLast?_cons_ne (c : Char) (t : Str) (ht : t ≠ []) :
    (c :: t).getLast? = t.getLast? := by
  cases t with
  | nil => exact absurd rfl ht
  | cons d t2 => rw [List.getLast?_cons_cons]

theorem nl_mem_of_getLast (z : Str) (hc : z.getLast? = some '\n') : '\n' ∈ z :=
  List.mem_of_mem_getLast? hc

theorem joinNL_concat_getLast : ∀ (l : List Str) (x : Str), x ≠ [] →
    (joinNL (l ++ [x])).getLast? = x.getLast?
  | [], x, _ => rfl
  | [a], x, hx => by
    have heq : joinNL ([a] ++ [x]) = a ++ '\n' :: x := rfl
    rw [heq, getLast?_append_ne a ('\n' :: x) (by simp), getLast?_cons_ne '\n' x hx]
  | a :: b :: t, x, hx => by
    have heq : joinNL ((a :: b :: t) ++ [x]) = a ++ '\n' :: joinNL ((b :: t) ++ [x]) := rfl
    have ih := joinNL_concat_getLast (b :: t) x hx
    rcases getLast?_isSome_of_ne_nil x hx with ⟨c, hc⟩
    have hne2 : joinNL ((b :: t) ++ [x]) ≠ [] := by
      intro h0
      rw [h0] at ih
      rw [hc] at ih
      exact absurd ih (by simp)
    rw [heq, getLast?_append_ne a _ (by simp), getLast?_cons_ne '\n' _ hne2, ih]

theorem joinNL_getLast_nonNL : ∀ (l : List Str),
    (∀ s ∈ l, '\n' ∉ s ∧ s ≠ []) → l ≠ [] →
    ∃ c, (joinNL l).getLast? = some c ∧ ¬ (c = '\n')
  | [], _, hne => absurd rfl hne
  | [x], h, _ => by
    rcases h x (List.mem_cons_self _ _) with ⟨hnl, hxne⟩
    rcases getLast?_isSome_of_ne_nil x hxne with ⟨c, hc⟩
    have heq : joinNL [x] = x := rfl
    refine ⟨c, by rw [heq, hc], ?_⟩
    intro he
    rw [he] at hc
    exact hnl (nl_mem_of_getLast x hc)
  | x :: y :: ys, h, _ => by
    have heq : joinNL (x :: y :: ys) = x ++ '\n' :: joinNL (y :: ys) := rfl
    rcases joinNL_getLast_nonNL (y :: ys)
      (fun s hs => h s (List.mem_cons_of_mem _ hs)) (by simp) with ⟨c, hc, hcnl⟩
    have hne2 : joinNL (y :: ys) ≠ [] := by
      intro h0
      rw [h0] at hc
      exact absurd hc (by simp)
    refine ⟨c, ?_, hcnl⟩
    rw [heq, getLast?_append_ne x _ (by simp), getLast?_cons_ne '\n' _ hne2, hc]

theorem build_contents_eq (header : List Str) (entries : List Entry) (ts : Str) :
    build_contents header entries ts =
      joinBlank
        ([joinNL (header.filter (fun h => !startsWithStr MERGED_MARKER h) ++
            [(MERGED_MARKER ++ ts : Str)])] ++
          (if joinNL (entries.map render_entry) = str "" then []
           else [joinNL (entries.map render_entry)])) ++ ['\n'] := by
  simp only [build_contents]
  have hne0 : (header.filter (fun h => !startsWithStr MERGED_MARKER h) ++
      [(MERGED_MARKER ++ ts : Str)]).isEmpty = false := by simp
  rw [hne0]
  simp

/-! C7.  The claim quantifies over every header and entry list; entries
whose rendered line itself begins with the freshness-marker text, or whose
parts embed newline characters, break it, so it is corrected by the
corresponding hypotheses. -/

/-- C7 (counterexample): an entry value that itself starts with
"# Merged on " yields a second marker line in the rendered text, refuting
the claim as stated for arbitrary entry lists. -/
theorem claim_C7_counterexample :
    ¬ (markerLineCount (build_contents [] [(str "# Merged on x", str "")] (str "T")) = 1 ∧
       endsOneNL (build_contents [] [(str "# Merged on x", str "")] (str "T"))) := by
  intro h
  have := h.1
  exact absurd this (by decide)

/-- C7 (amended): if no header line, entry part or timestamp contains a
newline, every entry renders to a nonempty line, and no rendered entry line
starts with the freshness-marker text, then the rendered text contains
exactly one line starting with "# Merged on " and ends with exactly one
trailing newline. -/
theorem claim_C7 (header : List Str) (entries : List Entry) (ts : Str)
    (hH : ∀ s ∈ header, '\n' ∉ s)
    (hT : '\n' ∉ ts)
    (hE : ∀ e ∈ entries, '\n' ∉ e.1 ∧ '\n' ∉ e.2 ∧ render_entry e ≠ [] ∧
      startsWithStr MERGED_MARKER (render_entry e) = false) :
    markerLineCount (build_contents header entries ts) = 1 ∧
    endsOneNL (build_contents header entries ts) := by
  have hGne : (MERGED_MARKER ++ ts : Str) ≠ [] := by simp [MERGED_MARKER, str]
  have hGnoNL : '\n' ∉ (MERGED_MARKER ++ ts : Str) := by
    intro hm
    rcases List.mem_append.mp hm with h1 | h1
    · revert h1
      decide
    · exact hT h1
  have hFnoNL : ∀ s ∈ header.filter (fun h => !startsWithStr MERGED_MARKER h), '\n' ∉ s :=
    fun s hs => hH s (List.mem_filter.mp hs).1
  have hHOnoNL : ∀ s ∈ header.filter (fun h => !startsWithStr MERGED_MARKER h) ++
      [(MERGED_MARKER ++ ts : Str)], '\n' ∉ s := by
    intro s hs
    rcases List.mem_append.mp hs with h1 | h1
    · exact hFnoNL s h1
    · simp at h1
      rw [h1]
      exact hGnoNL
  have hRnoNL : ∀ e ∈ entries, '\n' ∉ render_entry e := by
    intro e he
    rcases hE e he with ⟨h1, h2, _, _⟩
    unfold render_entry
    by_cases hc : e.2 ≠ str ""
    · rw [if_pos hc]
      intro hm
      rcases List.mem_append.mp hm with hm1 | hm1
      · rcases List.mem_append.mp hm1 with hm2 | hm2
        · exact h1 hm2
        · revert hm2
          decide
      · exact h2 hm1
    · rw [if_neg hc]
      exact h1
  have hBLnoNL : ∀ s ∈ entries.map render_entry, '\n' ∉ s := by
    intro s hs
    rcases List.mem_map.mp hs with ⟨e, he, hre⟩
    rw [← hre]
    exact hRnoNL e he
  have hcF : (header.filter (fun h => !startsWithStr MERGED_MARKER h)).countP
      (fun ln => startsWithStr MERGED_MARKER ln) = 0 := by
    apply List.countP_eq_zero.mpr
    intro a ha
    have h2 := (List.mem_filter.mp ha).2
    simp only [Bool.not_eq_true'] at h2
    simp [h2]
  have hcG : startsWithStr MERGED_MARKER (MERGED_MARKER ++ ts) = true := by
    unfold startsWithStr
    exact isPrefixOf_append_self MERGED_MARKER ts
  have hcBL : (entries.map render_entry).countP
      (fun ln => startsWithStr MERGED_MARKER ln) = 0 := by
    apply List.countP_eq_zero.mpr
    intro a ha
    rcases List.mem_map.mp ha with ⟨e, he, hre⟩
    rcases hE e he with ⟨_, _, _, h4⟩
    rw [← hre]
    simp [h4]
  have hcEmpty : startsWithStr MERGED_MARKER [] = false := by decide
  by_cases hB : joinNL (entries.map render_entry) = str ""
  · have htext : build_contents header entries ts =
        joinNL (header.filter (fun h => !startsWithStr MERGED_MARKER h) ++
          [(MERGED_MARKER ++ ts : Str)]) ++ ['\n'] := by
      rw [build_contents_eq, if_pos hB]
      rfl
    have hsplit := splitLines_joinNL
      (header.filter (fun h => !startsWithStr MERGED_MARKER h) ++
        [(MERGED_MARKER ++ ts : Str)]) hHOnoNL (by simp) []
    constructor
    · unfold markerLineCount
      rw [htext]
      have h5 : (joinNL (header.filter (fun h => !startsWithStr MERGED_MARKER h) ++
          [(MERGED_MARKER ++ ts : Str)]) ++ ['\n'] : Str) =
          joinNL (header.filter (fun h => !startsWithStr MERGED_MARKER h) ++
            [(MERGED_MARKER ++ ts : Str)]) ++ '\n' :: [] := rfl
      rw [h5, hsplit]
      simp [List.countP_append, List.countP_cons, hcF, hcG, hcEmpty, splitLines]
    · constructor
      · rw [htext]
        exact List.getLast?_concat _
      · rw [htext, List.dropLast_concat]
        rw [joinNL_concat_getLast _ (MERGED_MARKER ++ ts) hGne]
        intro hc
        exact hGnoNL (nl_mem_of_getLast _ hc)
  · have hBLne : entries.map render_entry ≠ [] := by
      intro h0
      rw [h0] at hB
      exact hB rfl
    have hBLok : ∀ s ∈ entries.map render_entry, '\n' ∉ s ∧ s ≠ [] := by
      intro s hs
      rcases List.mem_map.mp hs with ⟨e, he, hre⟩
      rcases hE e he with ⟨_, _, h3, _⟩
      rw [← hre]
      exact ⟨hRnoNL e he, h3⟩
    have htext : build_contents header entries ts =
        (joinNL (header.filter (fun h => !startsWithStr MERGED_MARKER h) ++
          [(MERGED_MARKER ++ ts : Str)]) ++
          '\n' :: '\n' :: joinNL (entries.map render_entry)) ++ ['\n'] := by
      rw [build_contents_eq, if_neg hB]
      rfl
    have hassoc : (joinNL (header.filter (fun h => !startsWithStr MERGED_MARKER h) ++
          [(MERGED_MARKER ++ ts : Str)]) ++
          '\n' :: '\n' :: joinNL (entries.map render_entry)) ++ ['\n'] =
        joinNL (header.filter (fun h => !startsWithStr MERGED_MARKER h) ++
          [(MERGED_MARKER ++ ts : Str)]) ++
          '\n' :: ('\n' :: (joinNL (entries.map render_entry) ++ ['\n'])) := by
      simp
    constructor
    · unfold markerLineCount
      rw [htext, hassoc]
      rw [splitLines_joinNL _ hHOnoNL (by simp) _]
      rw [splitLines_cons_nl]
      have h6 : (joinNL (entries.map render_entry) ++ ['\n'] : Str) =
          joinNL (entries.map render_entry) ++ '\n' :: [] := rfl
      rw [h6, splitLines_joinNL _ hBLnoNL hBLne []]
      simp [List.countP_append, List.countP_cons, hcF, hcG, hcBL, hcEmpty, splitLines]
    · constructor
      · rw [htext]
        exact List.getLast?_concat _
      · rw [htext, List.dropLast_concat]
        rcases joinNL_getLast_nonNL (entries.map render_entry) hBLok hBLne with ⟨c, hc, hcnl⟩
        have hjne : joinNL (entries.map render_entry) ≠ [] := by
          intro h0
          rw [h0] at hc
          exact absurd hc (by simp)
        rw [getLast?_append_ne _ _ (by simp)]
        rw [getLast?_cons_ne _ _ (by simp), getLast?_cons_ne _ _ hjne, hc]
        intro he
        simp at he
        exact hcnl he

/-- C7 (witness): the amended statement on a concrete header, entry list
and timestamp. -/
theorem claim_C7_witness :
    markerLineCount (build_contents [str "# my list"]
      [(str "123", str "spam"), (str "@abcde", str "")] (str "2024-01-01 00:00 UTC")) = 1 ∧
    endsOneNL (build_contents [str "# my list"]
      [(str "123", str "spam"), (str "@abcde", str "")] (str "2024-01-01 00:00 UTC")) :=
  claim_C7 [str "# my list"] [(str "123", str "spam"), (str "@abcde", str "")]
    (str "2024-01-01 00:00 UTC") (by decide) (by decide) (by decide)

/-! The validator loop, split around an arbitrary position. -/

theorem validateAux_append : ∀ (xs seen : List Str) (i : Nat) (ys : List Str),
    validateAux seen i (xs ++ ys) =
      validateAux seen i xs ++ validateAux (seenAfter seen xs) (i + xs.length) ys
  | [], seen, i, ys => by simp [validateAux, seenAfter]
  | raw :: rest, seen, i, ys => by
    simp only [List.cons_append, validateAux, seenAfter]
    have harith : i + 1 + rest.length = i + (rest.length + 1) := by omega
    split_ifs with h1 h2 h3 h4 <;>
      simp [validateAux_append rest, List.length_cons, harith, List.cons_append]

theorem validateAux_mem_range : ∀ (ls seen : List Str) (i : Nat) (v : Viol),
    v ∈ validateAux seen i ls → i ≤ v.1 ∧ v.1 < i + ls.length
  | [], _, _, _, h => by simp [validateAux] at h
  | raw :: rest, seen, i, v, h => by
    simp only [validateAux] at h
    simp only [List.length_cons]
    split_ifs at h with h1 h2 h3 h4
    · have := validateAux_mem_range rest _ _ v h
      omega
    · have := validateAux_mem_range rest _ _ v h
      omega
    · rcases List.mem_cons.mp h with hv | hv
      · rw [hv]
        simp
      · have := validateAux_mem_range rest _ _ v hv
        omega
    · have := validateAux_mem_range rest _ _ v h
      omega
    · rcases List.mem_cons.mp h with hv | hv
      · rw [hv]
        simp
      · have := validateAux_mem_range rest _ _ v hv
        omega

/-! C8: a line whose lowercased main part repeats an earlier key is
reported as a duplicate and receives no format check. -/

/-- C8: when the stripped line at position pre.length + 1 is neither blank
nor a comment, has a nonempty main part, and its lowercased main part is in
the seen set built from the earlier lines, then validate reports that line
with reason "duplicate", and no "invalid format" violation is recorded for
that line number. -/
theorem claim_C8 (pre post : List Str) (raw : Str)
    (h1 : ¬ (pyStrip raw = str ""))
    (h2 : ¬ (startsWithCh '#' (pyStrip raw) = true))
    (h3 : ¬ (pyStrip ((pyStrip raw).takeWhile (fun c => c ≠ '#')) = str ""))
    (h4 : lower (pyStrip ((pyStrip raw).takeWhile (fun c => c ≠ '#'))) ∈ seenAfter [] pre) :
    (pre.length + 1, pyStrip raw, str "duplicate") ∈ validate (pre ++ raw :: post) ∧
    ∀ raw2 : Str, (pre.length + 1, raw2, str "invalid format") ∉
      validate (pre ++ raw :: post) := by
  have hcond : ¬ ((decide (pyStrip raw = str "") || startsWithCh '#' (pyStrip raw)) = true) := by
    simp [h1, h2]
  have hstep : validateAux (seenAfter [] pre) (pre.length + 1) (raw :: post) =
      (pre.length + 1, pyStrip raw, str "duplicate") ::
        validateAux (seenAfter [] pre) (pre.length + 1 + 1) post := by
    simp only [validateAux]
    rw [if_neg hcond, if_neg h3, if_pos h4]
  have hidx : 1 + pre.length = pre.length + 1 := by omega
  have hval : validate (pre ++ raw :: post) =
      validateAux [] 1 pre ++
        ((pre.length + 1, pyStrip raw, str "duplicate") ::
          validateAux (seenAfter [] pre) (pre.length + 1 + 1) post) := by
    unfold validate
    rw [validateAux_append pre [] 1 (raw :: post), hidx, hstep]
  constructor
  · rw [hval]
    exact List.mem_append_right _ (List.mem_cons_self _ _)
  · intro raw2 hmem
    rw [hval] at hmem
    rcases List.mem_append.mp hmem with hA | hB
    · have hr := validateAux_mem_range pre [] 1 _ hA
      simp at hr
      omega
    · rcases List.mem_cons.mp hB with hEq | hC
      · have := congrArg (fun v : Viol => v.2.2) hEq
        simp at this
        have h9 : (str "invalid format").length = (str "duplicate").length :=
          congrArg List.length this
        exact absurd h9 (by decide)
      · have hr := validateAux_mem_range post _ _ _ hC
        simp at hr

/-- C8 (witness): the duplicate rule at work on keys differing only in
letter case. -/
theorem claim_C8_witness :
    (2, str "@foo", str "duplicate") ∈ validate [str "@Foo", str "@foo"] ∧
    ∀ raw2 : Str, (2, raw2, str "invalid format") ∉ validate [str "@Foo", str "@foo"] :=
  claim_C8 [str "@Foo"] [] (str "@foo") (by decide) (by decide) (by decide) (by decide)

/-! C9: the username grammar boundaries. -/

/-- C9: validate accepts the five-character username "@abcde" and reports
"invalid format" for the four-character "@abcd" and for an at sign followed
by 33 word characters. -/
theorem claim_C9 :
    validate [str "@abcde"] = [] ∧
    validate [str "@abcd"] = [(1, str "@abcd", str "invalid format")] ∧
    validate [('@' :: List.replicate 33 'a' : Str)] =
      [(1, ('@' :: List.replicate 33 'a' : Str), str "invalid format")] := by
  refine ⟨rfl, rfl, ?_⟩
  decide
